import Mathlib

set_option maxHeartbeats 1000000

/-!
Verification development for the impact funnel server (src/main.go).

The framing codec (fullRead, unpackVarintData, dataToInt,
readMessageFromConn) is embedded as pure functions over an explicit byte
stream.  The funnel worker (pumpConnectionToResource) and the
per-connection handler (handleConnection) are embedded as event-trace
generators driven by the outcomes of their I/O operations; the traces
record, in program order, the channel receives, resource writes/reads and
reply deliveries the code performs.
-/

/-- Result of running a piece of Go code: a value, a Go error value, or a
runtime panic. -/
inductive GoRes (α : Type) where
  | ok (val : α)
  | err (msg : String)
  | panicked
deriving DecidableEq, Repr

/-- A byte stream as seen through successive Read calls: the bytes not yet
consumed, and a schedule bounding how many bytes each successive Read call
delivers (an exhausted schedule lets every remaining Read deliver as much
as was requested).  Each Read on a non-exhausted stream delivers at least
one byte; a Read on an exhausted stream reports an error (EOF). -/
structure ByteStream where
  data : List Nat
  sched : List Nat
deriving DecidableEq, Repr

/-- The loop of fullRead (src/main.go lines 228-242).  Each iteration calls
conn.Read(buffer), which writes its chunk at offset 0 of the buffer — not
at offset totalRead — exactly as the Go code does, and adds the chunk
length to totalRead.  The chunk length is min(len(buffer), schedule head,
bytes remaining) and at least 1 while data remains.  fuel bounds the
number of iterations; callers pass data.length + 1, which always suffices
because every iteration consumes at least one byte of data. -/
def fullReadLoop : Nat → List Nat → Nat → Nat → ByteStream → GoRes (List Nat × ByteStream)
  | fuel, buffer, totalRead, size, ⟨data, sched⟩ =>
    if totalRead < size then
      match fuel, data with
      | 0, _ => GoRes.err "read error"
      | _ + 1, [] => GoRes.err "read error"
      | fuel1 + 1, d :: ds =>
        let k := min (max 1 (min size (sched.headD size))) (d :: ds).length
        fullReadLoop fuel1 ((d :: ds).take k ++ buffer.drop k) (totalRead + k) size
          ⟨(d :: ds).drop k, sched.tail⟩
    else
      GoRes.ok (buffer, ⟨data, sched⟩)

/-- fullRead (src/main.go lines 228-242): allocate make([]byte, size) —
which panics when size is a negative Go int — then run the read loop. -/
def fullRead (s : ByteStream) (size : Int) : GoRes (List Nat × ByteStream) :=
  if size < 0 then GoRes.panicked
  else fullReadLoop (s.data.length + 1) (List.replicate size.toNat 0) 0 size.toNat s

/-- fullReadFile (src/main.go lines 211-225): its body is character for
character the body of fullRead, only the stream argument type differs. -/
def fullReadFile (s : ByteStream) (size : Int) : GoRes (List Nat × ByteStream) :=
  fullRead s size

/-- unpackVarintData (src/main.go lines 275-291).  A nil buffer and an
empty buffer produce the two FrameErrors of the source.  Otherwise
gap := 8 - len(buffer) and the code copies the buffer into
uint64Bytes[gap:], right-aligning it in 8 zero bytes; slicing with a
negative gap (len(buffer) > 8) panics in Go. -/
def unpackVarintData (buffer : Option (List Nat)) : GoRes (List Nat) :=
  match buffer with
  | none => GoRes.err "buffer was nil"
  | some buf =>
    if buf.length = 0 then GoRes.err "buffer was empty"
    else
      let count := buf.length
      let gap : Int := 8 - (count : Int)
      if gap < 0 then GoRes.panicked
      else GoRes.ok (List.replicate gap.toNat 0 ++ buf.take count)

/-- Big-endian value of a byte list, folded most significant byte first,
as binary.BigEndian.Uint64 computes it. -/
def beValue (l : List Nat) : Nat :=
  l.foldl (fun acc b => acc * 256 + b) 0

/-- dataToInt (src/main.go lines 294-298): binary.BigEndian.Uint64 reads
the first 8 bytes as a big-endian unsigned value, and int(uintValue)
reinterprets it as a signed 64-bit integer (values at or above 2^63 wrap
to negative). -/
def dataToInt (buffer : List Nat) : Int :=
  let uintValue := beValue (buffer.take 8)
  if uintValue < 2 ^ 63 then (uintValue : Int) else (uintValue : Int) - 2 ^ 64

/-- readMessageFromConn (src/main.go lines 179-208): read 1 size byte,
read that many length-field bytes, right-align them to 8 bytes, convert to
a Go int, read that many payload bytes, and return the concatenation
size byte ++ length field ++ payload. -/
def readMessageFromConn (s : ByteStream) : GoRes (List Nat × ByteStream) :=
  match fullRead s 1 with
  | GoRes.err e => GoRes.err e
  | GoRes.panicked => GoRes.panicked
  | GoRes.ok (prefixBuf, s1) =>
    let varintCount : Int := (prefixBuf.headD 0 : Int)
    match fullRead s1 varintCount with
    | GoRes.err e => GoRes.err e
    | GoRes.panicked => GoRes.panicked
    | GoRes.ok (compressedBuffer, s2) =>
      match unpackVarintData (some compressedBuffer) with
      | GoRes.err e => GoRes.err e
      | GoRes.panicked => GoRes.panicked
      | GoRes.ok uncompressedBuffer =>
        let payloadCount : Int := dataToInt uncompressedBuffer
        match fullRead s2 payloadCount with
        | GoRes.err e => GoRes.err e
        | GoRes.panicked => GoRes.panicked
        | GoRes.ok (payload, s3) =>
          GoRes.ok (prefixBuf ++ compressedBuffer ++ payload, s3)

/-- readMessageFromStream (src/main.go lines 144-173): the identical
decode algorithm run on the resource output stream (its body differs from
readMessageFromConn only in calling fullReadFile, whose body is identical
to fullRead). -/
def readMessageFromStream (s : ByteStream) : GoRes (List Nat × ByteStream) :=
  readMessageFromConn s

/-- Modelled from the spec: big-endian encoding of n in exactly len bytes,
most significant byte first (spec section 4.1, the length field of
encode).  No encoder exists under src/. -/
def natToBytesBE : Nat → Nat → List Nat
  | _, 0 => []
  | n, len + 1 => n / 256 ^ len :: natToBytesBE (n % 256 ^ len) len

/-- Modelled from the spec: the minimal size byte N in 1..8 whose N-byte
big-endian field can represent L (spec section 4.1: choose minimal N). -/
def minimalN (L : Nat) : Nat :=
  if L < 2 ^ 8 then 1
  else if L < 2 ^ 16 then 2
  else if L < 2 ^ 24 then 3
  else if L < 2 ^ 32 then 4
  else if L < 2 ^ 40 then 5
  else if L < 2 ^ 48 then 6
  else if L < 2 ^ 56 then 7
  else 8

/-- Modelled from the spec: encode a payload as a frame with a given
length-field width N — size byte N, then the N-byte big-endian length
field, then the payload (spec sections 4.1 and 6). -/
def encodeWithN (N : Nat) (payload : List Nat) : List Nat :=
  N :: (natToBytesBE payload.length N ++ payload)

/-- Modelled from the spec: encode(payload) with the minimal-N policy of
spec section 4.1.  The observed flow never re-encodes, so src/ has no
encoder; this is the spec mirror operation of decode. -/
def encode (payload : List Nat) : List Nat :=
  encodeWithN (minimalN payload.length) payload

/-- Modelled from the spec: the internal/response package referenced by
src/main.go is not under src/; per spec section 3 a Response is an
optional payload plus a close flag, built positionally in main.go as
Response{payload, close}. -/
structure Response where
  payload : Option (List Nat)
  close : Bool
deriving DecidableEq, Repr

/-- Observable events of the funnel worker pumpConnectionToResource
(src/main.go lines 88-107), in program order.  recv i is the channel
receive of request i; writeRes/writeFail i is the outcome of
fullWriteFile of its payload to the resource input; readAttempt i is the
start of readMessageFromStream on the resource output; readReply i is its
successful return; reply i present close is a completed send of
Response{present?, close} on request i's reply channel; replyBlocked i is
a send on request i's reply channel that can never complete; exit is
os.Exit; cancel is the context cancel after the request channel closes. -/
inductive Event where
  | recv (i : Nat)
  | writeRes (i : Nat)
  | writeFail (i : Nat)
  | readAttempt (i : Nat)
  | readReply (i : Nat)
  | reply (i : Nat) (payloadPresent : Bool) (close : Bool)
  | replyBlocked (i : Nat)
  | exit (code : Nat)
  | cancel
deriving DecidableEq, Repr

/-- Trace of pumpConnectionToResource (src/main.go lines 88-107) on the
requests received from the channel, numbered from n.  Each list entry
(w, r) gives the outcome of that request's resource write (w) and of the
subsequent resource-output decode (r).  The loop body: receive; full-write
the payload (on failure send Response{nil, true} — and fall through, there
is no continue); decode one reply from the resource output (on failure
print and os.Exit(21)); send Response{reply, false}.  After a write
failure the handler has received the close response and returned, so the
fall-through send of Response{reply, false} on its abandoned private
channel blocks the worker forever: the trace records it as replyBlocked
and ends.  When the request channel is exhausted the loop ends and cancel
runs. -/
def pumpTrace : Nat → List (Bool × Bool) → List Event
  | _, [] => [Event.cancel]
  | n, (w, r) :: rest =>
    if w then
      if r then
        [Event.recv n, Event.writeRes n, Event.readAttempt n, Event.readReply n,
          Event.reply n true false] ++ pumpTrace (n + 1) rest
      else
        [Event.recv n, Event.writeRes n, Event.readAttempt n, Event.exit 21]
    else
      if r then
        [Event.recv n, Event.writeFail n, Event.reply n false true, Event.readAttempt n,
          Event.readReply n, Event.replyBlocked n]
      else
        [Event.recv n, Event.writeFail n, Event.reply n false true, Event.readAttempt n,
          Event.exit 21]

/-- The request index an event concerns, when it concerns one. -/
def eIdx : Event → Option Nat
  | Event.recv i => some i
  | Event.writeRes i => some i
  | Event.writeFail i => some i
  | Event.readAttempt i => some i
  | Event.readReply i => some i
  | Event.reply i _ _ => some i
  | Event.replyBlocked i => some i
  | Event.exit _ => none
  | Event.cancel => none

/-- Whether an event is a send (completed or forever-blocked) on request
k's reply channel. -/
def isReplySend (k : Nat) : Event → Bool
  | Event.reply j _ _ => j == k
  | Event.replyBlocked j => j == k
  | _ => false

/-- One loop iteration of handleConnection as the handler observes it:
whether readMessageFromConn succeeded, the Response received on the
private reply channel, and the byte count the single connection.Write
call reports written. -/
structure HStep where
  decodeOk : Bool
  resp : Response
  delivered : Nat
deriving DecidableEq, Repr

/-- Observable events of handleConnection (src/main.go lines 110-138):
readFrame i is a successful readMessageFromConn; submit i is the send of
request i into the funnel channel; writeC i bytes is the single
connection.Write call and the bytes it wrote; closeConn is
connection.Close; exit is os.Exit. -/
inductive HEvent where
  | readFrame (i : Nat)
  | submit (i : Nat)
  | writeC (i : Nat) (bytes : List Nat)
  | closeConn
  | exit (code : Nat)
deriving DecidableEq, Repr

/-- Trace of handleConnection (src/main.go lines 110-138), iterations
numbered from i.  Loop body: decode a frame (on failure print and
os.Exit(22)); submit the request; receive one Response; if its payload is
non-nil, one bare connection.Write of the payload — the Go code ignores
both the written count and the error, so a short write is final; if close
is set, close the connection and return, reading nothing further. -/
def handlerTrace : Nat → List HStep → List HEvent
  | _, [] => []
  | i, st :: rest =>
    if st.decodeOk then
      [HEvent.readFrame i, HEvent.submit i] ++
        (match st.resp.payload with
          | some p => [HEvent.writeC i (p.take st.delivered)]
          | none => []) ++
        (if st.resp.close then [HEvent.closeConn] else handlerTrace (i + 1) rest)
    else
      [HEvent.exit 22]

/-- The iteration index a handler event concerns, when it concerns one. -/
def hIdx : HEvent → Option Nat
  | HEvent.readFrame i => some i
  | HEvent.submit i => some i
  | HEvent.writeC i _ => some i
  | HEvent.closeConn => none
  | HEvent.exit _ => none

/-- Whether a handler event is the Write call of iteration k. -/
def isWriteTo (k : Nat) : HEvent → Bool
  | HEvent.writeC j _ => j == k
  | _ => false

/-! ### Equations and basic facts for the read loop -/

/-- The read loop returns the buffer unchanged once totalRead reached size. -/
lemma fullReadLoop_done (fuel : Nat) (buffer : List Nat) (totalRead size : Nat)
    (s : ByteStream) (h : ¬ totalRead < size) :
    fullReadLoop fuel buffer totalRead size s = GoRes.ok (buffer, s) := by
  cases s with
  | mk data sched => rw [fullReadLoop.eq_def]; simp [h]

/-- A Read on an exhausted stream reports an error. -/
lemma fullReadLoop_eof (fuel1 : Nat) (buffer : List Nat) (totalRead size : Nat)
    (sched : List Nat) (h : totalRead < size) :
    fullReadLoop (fuel1 + 1) buffer totalRead size ⟨[], sched⟩ = GoRes.err "read error" := by
  rw [fullReadLoop.eq_def]; simp [h]

/-- One iteration of the read loop on a non-exhausted stream. -/
lemma fullReadLoop_step (fuel1 : Nat) (buffer : List Nat) (totalRead size : Nat)
    (d : Nat) (ds sched : List Nat) (h : totalRead < size) :
    fullReadLoop (fuel1 + 1) buffer totalRead size ⟨d :: ds, sched⟩ =
      fullReadLoop fuel1
        ((d :: ds).take (min (max 1 (min size (sched.headD size))) (d :: ds).length) ++
          buffer.drop (min (max 1 (min size (sched.headD size))) (d :: ds).length))
        (totalRead + min (max 1 (min size (sched.headD size))) (d :: ds).length) size
        ⟨(d :: ds).drop (min (max 1 (min size (sched.headD size))) (d :: ds).length),
          sched.tail⟩ := by
  conv_lhs => rw [fullReadLoop.eq_def]
  simp [h]

/-- fullRead of zero bytes returns an empty buffer without touching the
stream. -/
lemma fullRead_zero (s : ByteStream) : fullRead s 0 = GoRes.ok ([], s) := by
  rw [fullRead]
  norm_num
  exact fullReadLoop_done _ _ _ _ _ (by omega)

/-- fullRead of one byte from a non-exhausted stream returns exactly its
first byte and consumes it. -/
lemma fullRead_one (s : ByteStream) (d : Nat) (ds : List Nat) (h : s.data = d :: ds) :
    fullRead s 1 = GoRes.ok ([d], ⟨ds, s.sched.tail⟩) := by
  cases s with
  | mk data sched =>
    simp only at h
    subst h
    have hk : min (max 1 (min 1 (sched.headD 1))) (d :: ds).length = 1 := by
      rw [max_eq_left (min_le_left _ _), min_eq_left (by simp)]
    rw [fullRead, if_neg (by norm_num)]
    rw [show ((1 : Int).toNat = 1) from rfl]
    rw [show (d :: ds).length + 1 = ds.length + 1 + 1 from by simp]
    rw [fullReadLoop_step _ _ _ _ _ _ _ (by omega), hk]
    simpa using fullReadLoop_done (ds.length + 1) [d] 1 1 ⟨ds, sched.tail⟩ (by omega)

/-- With an exhausted schedule every Read delivers as much as requested,
so fullRead of size bytes (size available) is the next size bytes of the
stream, in one iteration. -/
lemma fullRead_nil_sched (data : List Nat) (size : Nat) (h : size ≤ data.length) :
    fullRead ⟨data, []⟩ (size : Int) =
      GoRes.ok (data.take size, ⟨data.drop size, []⟩) := by
  rw [fullRead]
  rw [if_neg (by omega)]
  rw [show ((size : Int).toNat = size) from Int.toNat_natCast size]
  cases size with
  | zero => simpa using fullReadLoop_done _ _ _ _ _ (by omega)
  | succ n =>
    cases data with
    | nil => simp at h
    | cons d ds =>
      have hk : min (max 1 (min (n + 1) (([] : List Nat).headD (n + 1))))
          (d :: ds).length = n + 1 := by
        simp [Nat.min_def, Nat.max_def] at h ⊢
        omega
      rw [show (d :: ds).length + 1 = ds.length + 1 + 1 from by simp]
      rw [fullReadLoop_step _ _ _ _ _ _ _ (by omega)]
      rw [hk]
      rw [List.drop_replicate]
      simp only [Nat.sub_self, List.replicate_zero, List.append_nil, List.tail_nil]
      exact fullReadLoop_done _ _ _ _ _ (by omega)

/-- The read loop succeeds, with a buffer of the same length, whenever the
stream holds enough bytes (and the fuel exceeds the data length). -/
lemma fullReadLoop_ok : ∀ (fuel : Nat) (buffer : List Nat) (totalRead size : Nat)
    (data sched : List Nat),
    buffer.length = size → size - totalRead ≤ data.length → data.length < fuel →
    ∃ buf s2, fullReadLoop fuel buffer totalRead size ⟨data, sched⟩ = GoRes.ok (buf, s2) ∧
      buf.length = size := by
  intro fuel
  induction fuel with
  | zero => intro buffer totalRead size data sched hbuf hdata hfuel; omega
  | succ fuel1 ih =>
    intro buffer totalRead size data sched hbuf hdata hfuel
    by_cases htr : totalRead < size
    · cases data with
      | nil => simp at hdata; omega
      | cons d ds =>
        rw [fullReadLoop_step _ _ _ _ _ _ _ htr]
        set k := min (max 1 (min size (sched.headD size))) (d :: ds).length with hkdef
        have hk1 : 1 ≤ k := by
          apply le_min
          · exact le_max_left 1 _
          · simp
        have hks : k ≤ size := by
          have h1 : max 1 (min size (sched.headD size)) ≤ size := by
            apply max_le (by omega) (min_le_left _ _)
          exact le_trans (min_le_left _ _) h1
        have hkd : k ≤ (d :: ds).length := min_le_right _ _
        apply ih
        · rw [List.length_append, List.length_take, List.length_drop, hbuf]
          omega
        · rw [List.length_drop]
          omega
        · rw [List.length_drop]
          simp at hfuel ⊢
          omega
    · exact ⟨buffer, ⟨data, sched⟩, fullReadLoop_done _ _ _ _ _ htr, hbuf⟩

/-- fullRead succeeds with a buffer of exactly the requested length
whenever the stream holds enough bytes, whatever the delivery schedule. -/
lemma fullRead_ok_of_le (s : ByteStream) (size : Nat) (h : size ≤ s.data.length) :
    ∃ buf s2, fullRead s (size : Int) = GoRes.ok (buf, s2) ∧ buf.length = size := by
  rw [fullRead, if_neg (by omega)]
  rw [show ((size : Int).toNat = size) from Int.toNat_natCast size]
  exact fullReadLoop_ok _ _ _ _ _ _ (by simp) (by omega) (by omega)

/-! ### Big-endian values and the length field -/

/-- Folding the big-endian step from an arbitrary accumulator. -/
lemma beValue_foldl (l : List Nat) : ∀ init : Nat,
    l.foldl (fun acc b => acc * 256 + b) init = init * 256 ^ l.length + beValue l := by
  induction l with
  | nil => intro init; simp [beValue]
  | cons a l ih =>
    intro init
    have hl : beValue (a :: l) = a * 256 ^ l.length + beValue l := by
      rw [beValue, List.foldl_cons, ih (0 * 256 + a)]
      ring_nf
    rw [List.foldl_cons, ih (init * 256 + a), hl]
    simp [List.length_cons]
    ring
  
/-- Left zero padding does not change the big-endian value. -/
lemma beValue_replicate_zero_append (g : Nat) (l : List Nat) :
    beValue (List.replicate g 0 ++ l) = beValue l := by
  induction g with
  | zero => simp
  | succ n ih =>
    rw [beValue, List.replicate_succ, List.cons_append, List.foldl_cons]
    simpa [beValue] using ih

/-- natToBytesBE produces exactly len bytes. -/
lemma natToBytesBE_length (len : Nat) : ∀ n : Nat, (natToBytesBE n len).length = len := by
  induction len with
  | zero => intro n; rfl
  | succ m ih => intro n; simp [natToBytesBE, ih]

/-- The big-endian value of natToBytesBE n len is n, for n representable
in len bytes. -/
lemma beValue_natToBytesBE (len : Nat) : ∀ n : Nat, n < 256 ^ len →
    beValue (natToBytesBE n len) = n := by
  induction len with
  | zero =>
    intro n hn
    interval_cases n
    rfl
  | succ m ih =>
    intro n hn
    have hmod : n % 256 ^ m < 256 ^ m := Nat.mod_lt _ (Nat.pos_pow_of_pos m (by norm_num))
    rw [natToBytesBE, beValue, List.foldl_cons, beValue_foldl, natToBytesBE_length,
      ih (n % 256 ^ m) hmod]
    simpa [Nat.mul_comm] using Nat.div_add_mod n (256 ^ m)

/-- Every byte of natToBytesBE n len is below 256, for n representable in
len bytes. -/
lemma natToBytesBE_lt (len : Nat) : ∀ n : Nat, n < 256 ^ len →
    ∀ b ∈ natToBytesBE n len, b < 256 := by
  induction len with
  | zero => intro n hn b hb; simp [natToBytesBE] at hb
  | succ m ih =>
    intro n hn b hb
    rw [natToBytesBE] at hb
    rcases List.mem_cons.mp hb with hb1 | hb2
    · subst hb1
      have : n / 256 ^ m < 256 := by
        apply Nat.div_lt_of_lt_mul
        calc n < 256 ^ (m + 1) := hn
        _ = 256 ^ m * 256 := by ring
      exact this
    · exact ih (n % 256 ^ m) (Nat.mod_lt _ (Nat.pos_pow_of_pos m (by norm_num))) b hb2

/-- unpackVarintData on a buffer of 1 to 8 bytes right-aligns it into 8
zero-padded bytes. -/
lemma unpackVarintData_ok (buf : List Nat) (h1 : 1 ≤ buf.length) (h8 : buf.length ≤ 8) :
    unpackVarintData (some buf) =
      GoRes.ok (List.replicate (8 - buf.length) 0 ++ buf) := by
  rw [unpackVarintData]
  rw [if_neg (show ¬ buf.length = 0 by omega)]
  rw [if_neg (show ¬ (8 - (buf.length : Int) < 0) by omega)]
  rw [List.take_length]
  congr 2
  rw [show ((8 : Int) - (buf.length : Int)).toNat = 8 - buf.length by omega]

/-- unpackVarintData on more than 8 bytes slices with a negative index
and panics. -/
lemma unpackVarintData_panics (buf : List Nat) (h : 8 < buf.length) :
    unpackVarintData (some buf) = GoRes.panicked := by
  rw [unpackVarintData]
  rw [if_neg (show ¬ buf.length = 0 by omega)]
  rw [if_pos (show (8 - (buf.length : Int) < 0) by omega)]

/-- Decoding a well-formed frame from a fully delivering stream: size byte
N in 1..8, an N-byte length field of value below 2^63, and that many
payload bytes; the decoder returns size byte ++ length field ++ payload
and leaves the rest of the stream. -/
lemma decode_wellformed (N : Nat) (lenBytes payload rest : List Nat)
    (h1 : 1 ≤ N) (h8 : N ≤ 8) (hlen : lenBytes.length = N)
    (hval : beValue lenBytes < 2 ^ 63)
    (hpay : payload.length = beValue lenBytes) :
    readMessageFromConn ⟨N :: (lenBytes ++ payload ++ rest), []⟩ =
      GoRes.ok (N :: (lenBytes ++ payload), ⟨rest, []⟩) := by
  rw [readMessageFromConn]
  rw [fullRead_one _ N (lenBytes ++ payload ++ rest) rfl]
  simp only [List.headD_cons, List.tail_nil]
  have hN : N ≤ (lenBytes ++ payload ++ rest).length := by
    simp [hlen]
  rw [show ((N : Nat) : Int) = ((N : Nat) : Int) from rfl]
  rw [fullRead_nil_sched _ N hN]
  rw [List.append_assoc lenBytes payload rest]
  rw [List.take_append_of_le_length (by omega), List.take_of_length_le (by omega)]
  rw [List.drop_append_of_le_length (by omega), List.drop_of_length_le (by omega)]
  simp only [List.nil_append]
  rw [unpackVarintData_ok lenBytes (by omega) (by omega)]
  have hbe : beValue (List.replicate (8 - lenBytes.length) 0 ++ lenBytes) = beValue lenBytes :=
    beValue_replicate_zero_append _ _
  have hlen8 : (List.replicate (8 - lenBytes.length) 0 ++ lenBytes).length = 8 := by
    simp [hlen]; omega
  simp only [dataToInt]
  rw [List.take_of_length_le (by omega)]
  rw [hbe, if_pos hval]
  rw [fullRead_nil_sched _ (beValue lenBytes) (by simp [hpay])]
  rw [← hpay, List.take_append_of_le_length (by omega), List.take_of_length_le (by omega)]
  rw [List.drop_append_of_le_length (by omega), List.drop_of_length_le (by omega)]
  simp

/-! ### Structure of the funnel worker trace -/

/-- Every indexed event in the worker trace concerns a request numbered at
or after the first request of the trace. -/
lemma pump_eIdx_ge : ∀ (bs : List (Bool × Bool)) (n : Nat) (e : Event) (k : Nat),
    e ∈ pumpTrace n bs → eIdx e = some k → n ≤ k := by
  intro bs
  induction bs with
  | nil =>
    intro n e k hmem hidx
    simp [pumpTrace] at hmem
    subst hmem
    simp [eIdx] at hidx
  | cons b rest ih =>
    intro n e k hmem hidx
    obtain ⟨w, r⟩ := b
    cases w <;> cases r <;> simp [pumpTrace] at hmem
    · rcases hmem with rfl | rfl | rfl | rfl | rfl <;> simp [eIdx] at hidx <;> omega
    · rcases hmem with rfl | rfl | rfl | rfl | rfl | rfl <;> simp [eIdx] at hidx <;> omega
    · rcases hmem with rfl | rfl | rfl | rfl <;> simp [eIdx] at hidx <;> omega
    · rcases hmem with rfl | rfl | rfl | rfl | rfl | h
      · simp [eIdx] at hidx; omega
      · simp [eIdx] at hidx; omega
      · simp [eIdx] at hidx; omega
      · simp [eIdx] at hidx; omega
      · simp [eIdx] at hidx; omega
      · have := ih (n + 1) e k h hidx; omega

/-- A reply-channel send always concerns the request index it names. -/
lemma isReplySend_eIdx (k : Nat) (e : Event) (h : isReplySend k e = true) :
    eIdx e = some k := by
  cases e <;> simp [isReplySend] at h <;> simp [eIdx, h]

/-- No event of the worker trace repeats. -/
lemma pump_nodup : ∀ (bs : List (Bool × Bool)) (n : Nat), (pumpTrace n bs).Nodup := by
  intro bs
  induction bs with
  | nil => intro n; simp [pumpTrace]
  | cons b rest ih =>
    intro n
    obtain ⟨w, r⟩ := b
    cases w <;> cases r <;> simp [pumpTrace]
    · refine ⟨?_, ?_, ?_, ?_, ?_, ih (n + 1)⟩ <;>
        exact fun hmem => absurd (pump_eIdx_ge rest (n + 1) _ n hmem rfl) (by omega)

/-- FIFO with mutual exclusion in the worker trace: when requests i and j
(i before j) both reach the resource write, the write of i, the decoded
reply for i, and the write of j appear in this order. -/
lemma pump_order : ∀ (bs : List (Bool × Bool)) (n i j : Nat), i < j →
    Event.writeRes i ∈ pumpTrace n bs → Event.writeRes j ∈ pumpTrace n bs →
    [Event.writeRes i, Event.readReply i, Event.writeRes j].Sublist (pumpTrace n bs) := by
  intro bs
  induction bs with
  | nil => intro n i j hij hi hj; simp [pumpTrace] at hi
  | cons b rest ih =>
    intro n i j hij hi hj
    obtain ⟨w, r⟩ := b
    cases w <;> cases r
    · simp [pumpTrace] at hi
    · simp [pumpTrace] at hi
    · simp [pumpTrace] at hi hj
      omega
    · have htr : pumpTrace n ((true, true) :: rest) =
          [Event.recv n, Event.writeRes n, Event.readAttempt n, Event.readReply n,
            Event.reply n true false] ++ pumpTrace (n + 1) rest := by
        simp [pumpTrace]
      rw [htr] at hi hj ⊢
      have hjn : Event.writeRes j ∈ pumpTrace (n + 1) rest := by
        rcases List.mem_append.mp hj with h | h
        · exfalso
          simp at h
          rcases List.mem_append.mp hi with h2 | h2
          · simp at h2
            omega
          · have h3 := pump_eIdx_ge rest (n + 1) _ i h2 rfl
            omega
        · exact h
      rcases List.mem_append.mp hi with h2 | h2
      · simp at h2
        have h3 : n = i := by omega
        subst h3
        show ([Event.writeRes n, Event.readReply n] ++ [Event.writeRes j]).Sublist _
        refine List.Sublist.append ?_ (List.singleton_sublist.mpr hjn)
        exact ((((List.nil_sublist [Event.reply n true false]).cons₂
          (Event.readReply n)).cons (Event.readAttempt n)).cons₂
          (Event.writeRes n)).cons (Event.recv n)
      · exact (ih (n + 1) i j hij h2 hjn).trans (List.sublist_append_right _ _)

/-- After a resource write failure the worker sends Response{nil, true}
and still starts a read of the resource output. -/
lemma pump_writeFail_order : ∀ (bs : List (Bool × Bool)) (n i : Nat),
    Event.writeFail i ∈ pumpTrace n bs →
    [Event.writeFail i, Event.reply i false true, Event.readAttempt i].Sublist
      (pumpTrace n bs) := by
  intro bs
  induction bs with
  | nil => intro n i hi; simp [pumpTrace] at hi
  | cons b rest ih =>
    intro n i hi
    obtain ⟨w, r⟩ := b
    cases w <;> cases r
    · have htr : pumpTrace n ((false, false) :: rest) =
          [Event.recv n, Event.writeFail n, Event.reply n false true, Event.readAttempt n,
            Event.exit 21] := by simp [pumpTrace]
      rw [htr] at hi ⊢
      simp at hi
      have h3 : n = i := by omega
      subst h3
      exact ((((List.nil_sublist [Event.exit 21]).cons₂ (Event.readAttempt n)).cons₂
        (Event.reply n false true)).cons₂ (Event.writeFail n)).cons (Event.recv n)
    · have htr : pumpTrace n ((false, true) :: rest) =
          [Event.recv n, Event.writeFail n, Event.reply n false true, Event.readAttempt n,
            Event.readReply n, Event.replyBlocked n] := by simp [pumpTrace]
      rw [htr] at hi ⊢
      simp at hi
      have h3 : n = i := by omega
      subst h3
      exact (((((List.nil_sublist [Event.replyBlocked n]).cons
        (Event.readReply n)).cons₂ (Event.readAttempt n)).cons₂
        (Event.reply n false true)).cons₂ (Event.writeFail n)).cons (Event.recv n)
    · simp [pumpTrace] at hi
    · have htr : pumpTrace n ((true, true) :: rest) =
          [Event.recv n, Event.writeRes n, Event.readAttempt n, Event.readReply n,
            Event.reply n true false] ++ pumpTrace (n + 1) rest := by
        simp [pumpTrace]
      rw [htr] at hi ⊢
      rcases List.mem_append.mp hi with h | h
      · simp at h
      · exact (ih (n + 1) i h).trans (List.sublist_append_right _ _)

/-- Counting the worker's reply-channel sends for request n + i, given
that the i previous requests all took the all-success path (the only path
on which the worker continues to a further request). -/
lemma pump_replySend_count : ∀ (bs : List (Bool × Bool)) (n i : Nat) (w r : Bool),
    bs[i]? = some (w, r) → (∀ k, k < i → bs[k]? = some (true, true)) →
    (pumpTrace n bs).countP (isReplySend (n + i)) =
      if w then (if r then 1 else 0) else (if r then 2 else 1) := by
  intro bs
  induction bs with
  | nil => intro n i w r hi hk; simp at hi
  | cons b rest ih =>
    intro n i w r hi hk
    obtain ⟨w0, r0⟩ := b
    cases i with
    | zero =>
      rw [List.getElem?_cons_zero] at hi
      have hw : w0 = w ∧ r0 = r := by
        have := Option.some.inj hi
        exact ⟨congrArg Prod.fst this, congrArg Prod.snd this⟩
      obtain ⟨rfl, rfl⟩ := hw
      have htail : ∀ rest2 : List (Bool × Bool),
          (pumpTrace (n + 1) rest2).countP (isReplySend n) = 0 := by
        intro rest2
        rw [List.countP_eq_zero]
        intro e hmem hsend
        have := pump_eIdx_ge rest2 (n + 1) e n hmem (isReplySend_eIdx n e hsend)
        omega
      cases w0 <;> cases r0
      · simp [pumpTrace, List.countP_cons, isReplySend]
      · simp [pumpTrace, List.countP_cons, isReplySend]
      · simp [pumpTrace, List.countP_cons, isReplySend]
      · have htr : pumpTrace n ((true, true) :: rest) =
            [Event.recv n, Event.writeRes n, Event.readAttempt n, Event.readReply n,
              Event.reply n true false] ++ pumpTrace (n + 1) rest := by
          simp [pumpTrace]
        rw [htr, List.countP_append]
        simp [htail rest, List.countP_cons, isReplySend]
    | succ i1 =>
      rw [List.getElem?_cons_succ] at hi
      have h0 := hk 0 (Nat.succ_pos i1)
      rw [List.getElem?_cons_zero] at h0
      have hw : w0 = true ∧ r0 = true := by
        have := Option.some.inj h0
        exact ⟨congrArg Prod.fst this, congrArg Prod.snd this⟩
      obtain ⟨rfl, rfl⟩ := hw
      have hk2 : ∀ k, k < i1 → rest[k]? = some (true, true) := by
        intro k hkk
        have := hk (k + 1) (by omega)
        rwa [List.getElem?_cons_succ] at this
      have htr : pumpTrace n ((true, true) :: rest) =
          [Event.recv n, Event.writeRes n, Event.readAttempt n, Event.readReply n,
            Event.reply n true false] ++ pumpTrace (n + 1) rest := by
        simp [pumpTrace]
      have hne : ¬ (n = n + (i1 + 1)) := by omega
      rw [htr, List.countP_append]
      have hblock : [Event.recv n, Event.writeRes n, Event.readAttempt n, Event.readReply n,
          Event.reply n true false].countP (isReplySend (n + (i1 + 1))) = 0 := by
        simp [List.countP_cons, isReplySend, hne]
      rw [hblock]
      have := ih (n + 1) i1 w r hi hk2
      rw [show n + (i1 + 1) = n + 1 + i1 from by omega]
      omega

/-- A failed decode of the resource output ends the worker trace with
os.Exit(21); no later request is ever received. -/
lemma pump_exit21 : ∀ (bs : List (Bool × Bool)) (n i : Nat) (w : Bool),
    bs[i]? = some (w, false) → (∀ k, k < i → bs[k]? = some (true, true)) →
    (∃ pre, pumpTrace n bs = pre ++ [Event.exit 21]) ∧
      ∀ j, n + i < j → Event.recv j ∉ pumpTrace n bs := by
  intro bs
  induction bs with
  | nil => intro n i w hi hk; simp at hi
  | cons b rest ih =>
    intro n i w hi hk
    obtain ⟨w0, r0⟩ := b
    cases i with
    | zero =>
      rw [List.getElem?_cons_zero] at hi
      have hw : w0 = w ∧ r0 = false := by
        have := Option.some.inj hi
        exact ⟨congrArg Prod.fst this, congrArg Prod.snd this⟩
      obtain ⟨rfl, rfl⟩ := hw
      cases w0
      · constructor
        · exact ⟨[Event.recv n, Event.writeFail n, Event.reply n false true,
            Event.readAttempt n], by simp [pumpTrace]⟩
        · intro j hj hmem
          simp [pumpTrace] at hmem
          omega
      · constructor
        · exact ⟨[Event.recv n, Event.writeRes n, Event.readAttempt n], by simp [pumpTrace]⟩
        · intro j hj hmem
          simp [pumpTrace] at hmem
          omega
    | succ i1 =>
      rw [List.getElem?_cons_succ] at hi
      have h0 := hk 0 (Nat.succ_pos i1)
      rw [List.getElem?_cons_zero] at h0
      have hw : w0 = true ∧ r0 = true := by
        have := Option.some.inj h0
        exact ⟨congrArg Prod.fst this, congrArg Prod.snd this⟩
      obtain ⟨rfl, rfl⟩ := hw
      have hk2 : ∀ k, k < i1 → rest[k]? = some (true, true) := by
        intro k hkk
        have := hk (k + 1) (by omega)
        rwa [List.getElem?_cons_succ] at this
      obtain ⟨⟨pre, hpre⟩, hnorecv⟩ := ih (n + 1) i1 w hi hk2
      have htr : pumpTrace n ((true, true) :: rest) =
          [Event.recv n, Event.writeRes n, Event.readAttempt n, Event.readReply n,
            Event.reply n true false] ++ pumpTrace (n + 1) rest := by
        simp [pumpTrace]
      constructor
      · refine ⟨[Event.recv n, Event.writeRes n, Event.readAttempt n, Event.readReply n,
          Event.reply n true false] ++ pre, ?_⟩
        rw [htr, hpre, List.append_assoc]
      · intro j hj hmem
        rw [htr] at hmem
        rcases List.mem_append.mp hmem with h | h
        · simp at h; omega
        · exact hnorecv j (by omega) h

/-! ### Structure of the connection handler trace -/

/-- Every indexed event in the handler trace concerns an iteration at or
after the first iteration of the trace. -/
lemma handler_hIdx_ge : ∀ (steps : List HStep) (n : Nat) (e : HEvent) (k : Nat),
    e ∈ handlerTrace n steps → hIdx e = some k → n ≤ k := by
  intro steps
  induction steps with
  | nil => intro n e k hmem hidx; simp [handlerTrace] at hmem
  | cons st rest ih =>
    intro n e k hmem hidx
    by_cases hd : st.decodeOk
    · by_cases hc : st.resp.close
      · rcases hp : st.resp.payload with _ | p
        · simp [handlerTrace, hd, hp, hc] at hmem
          rcases hmem with rfl | rfl | rfl <;> simp [hIdx] at hidx <;> omega
        · simp [handlerTrace, hd, hp, hc] at hmem
          rcases hmem with rfl | rfl | rfl | rfl <;> simp [hIdx] at hidx <;> omega
      · rcases hp : st.resp.payload with _ | p
        · simp [handlerTrace, hd, hp, hc] at hmem
          rcases hmem with rfl | rfl | h
          · simp [hIdx] at hidx; omega
          · simp [hIdx] at hidx; omega
          · have := ih (n + 1) e k h hidx; omega
        · simp [handlerTrace, hd, hp, hc] at hmem
          rcases hmem with rfl | rfl | rfl | h
          · simp [hIdx] at hidx; omega
          · simp [hIdx] at hidx; omega
          · simp [hIdx] at hidx; omega
          · have := ih (n + 1) e k h hidx; omega
    · simp [handlerTrace, hd] at hmem
      subst hmem
      simp [hIdx] at hidx

/-- A Write event always concerns the iteration index it names. -/
lemma isWriteTo_hIdx (k : Nat) (e : HEvent) (h : isWriteTo k e = true) :
    hIdx e = some k := by
  cases e <;> simp_all [isWriteTo, hIdx]

/-- A failed decode of the connection ends the handler trace with
os.Exit(22); no later frame is ever read. -/
lemma handler_exit22 : ∀ (steps : List HStep) (n i : Nat) (st : HStep),
    steps[i]? = some st → st.decodeOk = false →
    (∀ k, k < i → ∃ stk, steps[k]? = some stk ∧ stk.decodeOk = true ∧
      stk.resp.close = false) →
    (∃ pre, handlerTrace n steps = pre ++ [HEvent.exit 22]) ∧
      ∀ j, n + i < j → HEvent.readFrame j ∉ handlerTrace n steps := by
  intro steps
  induction steps with
  | nil => intro n i st hi; simp at hi
  | cons st0 rest ih =>
    intro n i st hi hd hk
    cases i with
    | zero =>
      rw [List.getElem?_cons_zero] at hi
      have hst : st = st0 := (Option.some.inj hi).symm
      subst hst
      constructor
      · exact ⟨[], by simp [handlerTrace, hd]⟩
      · intro j hj hmem
        simp [handlerTrace, hd] at hmem
    | succ i1 =>
      rw [List.getElem?_cons_succ] at hi
      obtain ⟨stk, h0mem, h0d, h0c⟩ := hk 0 (Nat.succ_pos i1)
      rw [List.getElem?_cons_zero] at h0mem
      have hst0 : st0 = stk := Option.some.inj h0mem
      subst hst0
      have hk2 : ∀ k, k < i1 → ∃ stk2, rest[k]? = some stk2 ∧ stk2.decodeOk = true ∧
          stk2.resp.close = false := by
        intro k hkk
        have := hk (k + 1) (by omega)
        rwa [List.getElem?_cons_succ] at this
      obtain ⟨⟨pre, hpre⟩, hnoread⟩ := ih (n + 1) i1 st hi hd hk2
      rcases hp : st0.resp.payload with _ | p
      · have htr : handlerTrace n (st0 :: rest) =
            [HEvent.readFrame n, HEvent.submit n] ++ handlerTrace (n + 1) rest := by
          simp [handlerTrace, h0d, h0c, hp]
        refine ⟨⟨[HEvent.readFrame n, HEvent.submit n] ++ pre, ?_⟩, ?_⟩
        · rw [htr, hpre, List.append_assoc]
        · intro j hj hmem
          rw [htr] at hmem
          rcases List.mem_append.mp hmem with h | h
          · simp at h; omega
          · exact hnoread j (by omega) h
      · have htr : handlerTrace n (st0 :: rest) =
            [HEvent.readFrame n, HEvent.submit n,
              HEvent.writeC n (p.take st0.delivered)] ++ handlerTrace (n + 1) rest := by
          simp [handlerTrace, h0d, h0c, hp]
        refine ⟨⟨[HEvent.readFrame n, HEvent.submit n,
          HEvent.writeC n (p.take st0.delivered)] ++ pre, ?_⟩, ?_⟩
        · rw [htr, hpre, List.append_assoc]
        · intro j hj hmem
          rw [htr] at hmem
          rcases List.mem_append.mp hmem with h | h
          · simp at h; omega
          · exact hnoread j (by omega) h

/-! ### Claim theorems -/

/-- C1: at most one request is ever outstanding to the resource and
requests are serviced in the order their submission completes: if request
i enters the funnel before request j and both payloads reach the resource
write, then the worker writes i's payload and decodes i's reply before it
writes j's payload, and each write happens exactly once (the resource
never receives a second forwarded payload before the first reply is
produced). -/
theorem funnel_mutual_exclusion_fifo (bs : List (Bool × Bool)) (n i j : Nat)
    (hij : i < j)
    (hi : Event.writeRes i ∈ pumpTrace n bs)
    (hj : Event.writeRes j ∈ pumpTrace n bs) :
    [Event.writeRes i, Event.readReply i, Event.writeRes j].Sublist (pumpTrace n bs) ∧
      (pumpTrace n bs).count (Event.writeRes i) = 1 ∧
      (pumpTrace n bs).count (Event.writeRes j) = 1 :=
  ⟨pump_order bs n i j hij hi hj,
    List.count_eq_one_of_mem (pump_nodup bs n) hi,
    List.count_eq_one_of_mem (pump_nodup bs n) hj⟩

/-- Witness for C1 at two all-success requests. -/
theorem funnel_mutual_exclusion_fifo_witness :
    (0 : Nat) < 1 ∧
    Event.writeRes 0 ∈ pumpTrace 0 [(true, true), (true, true)] ∧
    Event.writeRes 1 ∈ pumpTrace 0 [(true, true), (true, true)] ∧
    ([Event.writeRes 0, Event.readReply 0, Event.writeRes 1].Sublist
        (pumpTrace 0 [(true, true), (true, true)]) ∧
      (pumpTrace 0 [(true, true), (true, true)]).count (Event.writeRes 0) = 1 ∧
      (pumpTrace 0 [(true, true), (true, true)]).count (Event.writeRes 1) = 1) :=
  ⟨by decide, by decide, by decide,
    funnel_mutual_exclusion_fifo [(true, true), (true, true)] 0 0 1 (by decide)
      (by decide) (by decide)⟩

/-- C2 (code bug in fullRead and fullReadFile, src/main.go lines 216 and
233): conn.Read(buffer) writes every chunk at offset 0, so on the stream
10, 20 delivered in two one-byte chunks a two-byte full read returns
20, 0 — the second chunk overwrites the first and the final buffer byte
is never filled — instead of the next two stream bytes 10, 20. -/
theorem fullRead_chunked_corruption :
    fullRead ⟨[10, 20], [1, 1]⟩ 2 = GoRes.ok ([20, 0], ⟨[], []⟩) ∧
    fullReadFile ⟨[10, 20], [1, 1]⟩ 2 = GoRes.ok ([20, 0], ⟨[], []⟩) ∧
    ([20, 0] : List Nat) ≠ [10, 20] := by decide

/-- C4 counterexample: the claim says the worker delivers exactly one
reply per request on the write-failure path as well; on behavior
(false, true) — write fails, subsequent read succeeds — the worker
performs two reply-channel sends for request 0, and on
[(false, true), (true, true)] the worker, blocked on the abandoned reply
slot, never even receives request 1. -/
theorem funnel_double_reply_counterexample :
    (pumpTrace 0 [(false, true)]).countP (isReplySend 0) = 2 ∧
    Event.recv 1 ∉ pumpTrace 0 [(false, true), (true, true)] := by decide

/-- C4 amended: a request the worker reaches gets exactly one reply send
on the all-success path; after a write failure the worker sends the
close-flagged failure reply and — when the subsequent resource read
succeeds — attempts a second send on the same abandoned slot (two sends,
the second blocking the worker forever); when the read fails the process
exits after the single failure reply (write ok, read failed: exit before
any reply). -/
theorem funnel_reply_count_amended (bs : List (Bool × Bool)) (n i : Nat) (w r : Bool)
    (hi : bs[i]? = some (w, r)) (hk : ∀ k, k < i → bs[k]? = some (true, true)) :
    (pumpTrace n bs).countP (isReplySend (n + i)) =
      if w then (if r then 1 else 0) else (if r then 2 else 1) :=
  pump_replySend_count bs n i w r hi hk

/-- Witness for C4 amended: one all-success request then a write-failure
request. -/
theorem funnel_reply_count_amended_witness :
    ([(true, true), (false, true)] : List (Bool × Bool))[1]? = some (false, true) ∧
    (pumpTrace 0 [(true, true), (false, true)]).countP (isReplySend 1) = 2 := by
  refine ⟨by decide, ?_⟩
  have h := funnel_reply_count_amended [(true, true), (false, true)] 0 1 false true
    (by decide) (by decide)
  simpa using h

/-- C7: when the worker's write of a request's payload to the resource
input fails, it delivers Response{nil, true} — payload absent, close set —
on that request's reply slot, and then still attempts to read a reply
frame from the resource output. -/
theorem pump_write_failure_reply_then_read (bs : List (Bool × Bool)) (n i : Nat)
    (hfail : Event.writeFail i ∈ pumpTrace n bs) :
    [Event.writeFail i, Event.reply i false true, Event.readAttempt i].Sublist
      (pumpTrace n bs) :=
  pump_writeFail_order bs n i hfail

/-- Witness for C7 at a single write-failing request. -/
theorem pump_write_failure_reply_then_read_witness :
    Event.writeFail 0 ∈ pumpTrace 0 [(false, false)] ∧
    [Event.writeFail 0, Event.reply 0 false true, Event.readAttempt 0].Sublist
      (pumpTrace 0 [(false, false)]) :=
  ⟨by decide, pump_write_failure_reply_then_read [(false, false)] 0 0 (by decide)⟩

/-- C8: a frame-decode failure on the resource output ends the worker
trace with os.Exit(21) as its final event and no later request is ever
received; a frame-decode failure on a client connection ends that
handler's trace with os.Exit(22) — os.Exit terminates the entire process,
not just the connection — and no further frame is read; there is no
retry in either trace. -/
theorem decode_failure_exit_codes :
    (∀ (bs : List (Bool × Bool)) (n i : Nat) (w : Bool),
      bs[i]? = some (w, false) → (∀ k, k < i → bs[k]? = some (true, true)) →
      (∃ pre, pumpTrace n bs = pre ++ [Event.exit 21]) ∧
        ∀ j, n + i < j → Event.recv j ∉ pumpTrace n bs) ∧
    (∀ (steps : List HStep) (n i : Nat) (st : HStep),
      steps[i]? = some st → st.decodeOk = false →
      (∀ k, k < i → ∃ stk, steps[k]? = some stk ∧ stk.decodeOk = true ∧
        stk.resp.close = false) →
      (∃ pre, handlerTrace n steps = pre ++ [HEvent.exit 22]) ∧
        ∀ j, n + i < j → HEvent.readFrame j ∉ handlerTrace n steps) :=
  ⟨pump_exit21, handler_exit22⟩

/-- Witness for C8: a failing resource read on request 0 and a failing
connection decode on iteration 0. -/
theorem decode_failure_exit_codes_witness :
    ((∃ pre, pumpTrace 0 [(true, false)] = pre ++ [Event.exit 21]) ∧
      ∀ j, 0 + 0 < j → Event.recv j ∉ pumpTrace 0 [(true, false)]) ∧
    ((∃ pre, handlerTrace 0 [⟨false, ⟨none, false⟩, 0⟩] = pre ++ [HEvent.exit 22]) ∧
      ∀ j, 0 + 0 < j → HEvent.readFrame j ∉ handlerTrace 0 [⟨false, ⟨none, false⟩, 0⟩]) :=
  ⟨decode_failure_exit_codes.1 [(true, false)] 0 0 true (by decide) (by decide),
    decode_failure_exit_codes.2 [⟨false, ⟨none, false⟩, 0⟩] 0 0 ⟨false, ⟨none, false⟩, 0⟩
      (by decide) (by decide)
      (by intro k hk; exact absurd hk (Nat.not_lt_zero k))⟩

/-- C6 counterexample: the claim says the handler full-writes the entire
payload, retrying short writes and surfacing write errors; in the code
(src/main.go line 126) the handler makes one bare connection.Write call
and ignores its result, so when the connection accepts only 1 of the 3
payload bytes the trace shows a single short write of 1 and the
connection is closed anyway — fullWrite exists in the source but is never
called by handleConnection. -/
theorem handler_short_write_counterexample :
    handlerTrace 0 [⟨true, ⟨some [1, 2, 3], true⟩, 1⟩] =
      [HEvent.readFrame 0, HEvent.submit 0, HEvent.writeC 0 [1], HEvent.closeConn] ∧
    ([1] : List Nat) ≠ [1, 2, 3] := by decide

/-- C6 amended: for every Response the handler receives, a present payload
causes exactly one bare connection.Write call — writing whatever count the
connection accepts, with no retry of short writes and the error ignored —
before the close flag is acted on; when close is set the write precedes
connection.Close, the trace ends at the close, and no further frame is
read. -/
theorem handler_single_write_then_close : ∀ (steps : List HStep) (n i : Nat) (st : HStep),
    steps[i]? = some st → st.decodeOk = true → st.resp.close = true →
    (∀ k, k < i → ∃ stk, steps[k]? = some stk ∧ stk.decodeOk = true ∧
      stk.resp.close = false) →
    (∃ pre, handlerTrace n steps = pre ++ [HEvent.closeConn]) ∧
      (∀ j, n + i < j → HEvent.readFrame j ∉ handlerTrace n steps) ∧
      ∀ p, st.resp.payload = some p →
        [HEvent.writeC (n + i) (p.take st.delivered), HEvent.closeConn].Sublist
          (handlerTrace n steps) ∧
        (handlerTrace n steps).countP (isWriteTo (n + i)) = 1 := by
  intro steps
  induction steps with
  | nil => intro n i st hi; simp at hi
  | cons st0 rest ih =>
    intro n i st hi hd hc hk
    cases i with
    | zero =>
      rw [List.getElem?_cons_zero] at hi
      have hst : st0 = st := Option.some.inj hi
      subst hst
      rcases hp : st0.resp.payload with _ | p
      · have htr : handlerTrace n (st0 :: rest) =
            [HEvent.readFrame n, HEvent.submit n] ++ [HEvent.closeConn] := by
          simp [handlerTrace, hd, hc, hp]
        refine ⟨⟨[HEvent.readFrame n, HEvent.submit n], htr⟩, ?_, ?_⟩
        · intro j hj hmem
          rw [htr] at hmem
          simp at hmem
          omega
        · intro p hpp
          exact absurd hpp (by simp)
      · have htr : handlerTrace n (st0 :: rest) =
            [HEvent.readFrame n, HEvent.submit n,
              HEvent.writeC n (p.take st0.delivered)] ++ [HEvent.closeConn] := by
          simp [handlerTrace, hd, hc, hp]
        refine ⟨⟨[HEvent.readFrame n, HEvent.submit n,
          HEvent.writeC n (p.take st0.delivered)], htr⟩, ?_, ?_⟩
        · intro j hj hmem
          rw [htr] at hmem
          simp at hmem
          omega
        · intro p2 hpp
          have hpe : p = p2 := Option.some.inj hpp
          subst hpe
          rw [show n + 0 = n from by omega]
          constructor
          · rw [htr]
            exact (((List.Sublist.refl [HEvent.closeConn]).cons₂
              (HEvent.writeC n (p.take st0.delivered))).cons (HEvent.submit n)).cons
              (HEvent.readFrame n)
          · rw [htr]
            simp [List.countP_append, List.countP_cons, isWriteTo]
    | succ i1 =>
      rw [List.getElem?_cons_succ] at hi
      obtain ⟨stk, h0mem, h0d, h0c⟩ := hk 0 (Nat.succ_pos i1)
      rw [List.getElem?_cons_zero] at h0mem
      have hst0 : st0 = stk := Option.some.inj h0mem
      subst hst0
      have hk2 : ∀ k, k < i1 → ∃ stk2, rest[k]? = some stk2 ∧ stk2.decodeOk = true ∧
          stk2.resp.close = false := by
        intro k hkk
        have := hk (k + 1) (by omega)
        rwa [List.getElem?_cons_succ] at this
      obtain ⟨⟨pre, hpre⟩, hnoread, hwr⟩ := ih (n + 1) i1 st hi hd hc hk2
      have hshift : n + (i1 + 1) = n + 1 + i1 := by omega
      rcases hp : st0.resp.payload with _ | p
      · have htr : handlerTrace n (st0 :: rest) =
            [HEvent.readFrame n, HEvent.submit n] ++ handlerTrace (n + 1) rest := by
          simp [handlerTrace, h0d, h0c, hp]
        refine ⟨⟨[HEvent.readFrame n, HEvent.submit n] ++ pre,
          by rw [htr, hpre, List.append_assoc]⟩, ?_, ?_⟩
        · intro j hj hmem
          rw [htr] at hmem
          rcases List.mem_append.mp hmem with h | h
          · simp at h; omega
          · exact hnoread j (by omega) h
        · intro p2 hpp
          obtain ⟨hsub, hcount⟩ := hwr p2 hpp
          rw [hshift]
          constructor
          · rw [htr]
            exact hsub.trans (List.sublist_append_right _ _)
          · rw [htr, List.countP_append]
            have hblock : [HEvent.readFrame n, HEvent.submit n].countP
                (isWriteTo (n + 1 + i1)) = 0 := by
              simp [List.countP_cons, isWriteTo]
            omega
      · have htr : handlerTrace n (st0 :: rest) =
            [HEvent.readFrame n, HEvent.submit n,
              HEvent.writeC n (p.take st0.delivered)] ++ handlerTrace (n + 1) rest := by
          simp [handlerTrace, h0d, h0c, hp]
        refine ⟨⟨[HEvent.readFrame n, HEvent.submit n,
          HEvent.writeC n (p.take st0.delivered)] ++ pre,
          by rw [htr, hpre, List.append_assoc]⟩, ?_, ?_⟩
        · intro j hj hmem
          rw [htr] at hmem
          rcases List.mem_append.mp hmem with h | h
          · simp at h; omega
          · exact hnoread j (by omega) h
        · intro p2 hpp
          obtain ⟨hsub, hcount⟩ := hwr p2 hpp
          rw [hshift]
          constructor
          · rw [htr]
            exact hsub.trans (List.sublist_append_right _ _)
          · rw [htr, List.countP_append]
            have hne : ¬ (n = n + 1 + i1) := by omega
            have hblock : [HEvent.readFrame n, HEvent.submit n,
                HEvent.writeC n (p.take st0.delivered)].countP
                (isWriteTo (n + 1 + i1)) = 0 := by
              simp [List.countP_cons, isWriteTo, hne]
            omega

/-- Witness for C6 amended: a close-flagged response with payload 1, 2, 3
of which the connection accepts one byte. -/
theorem handler_single_write_then_close_witness :
    (∃ pre, handlerTrace 0 [⟨true, ⟨some [1, 2, 3], true⟩, 1⟩] =
        pre ++ [HEvent.closeConn]) ∧
      (∀ j, 0 + 0 < j →
        HEvent.readFrame j ∉ handlerTrace 0 [⟨true, ⟨some [1, 2, 3], true⟩, 1⟩]) ∧
      ∀ p, (some [1, 2, 3] : Option (List Nat)) = some p →
        [HEvent.writeC (0 + 0) (p.take 1), HEvent.closeConn].Sublist
          (handlerTrace 0 [⟨true, ⟨some [1, 2, 3], true⟩, 1⟩]) ∧
        (handlerTrace 0 [⟨true, ⟨some [1, 2, 3], true⟩, 1⟩]).countP (isWriteTo (0 + 0)) = 1 :=
  handler_single_write_then_close [⟨true, ⟨some [1, 2, 3], true⟩, 1⟩] 0 0
    ⟨true, ⟨some [1, 2, 3], true⟩, 1⟩ (by decide) (by decide) (by decide)
    (by intro k hk; exact absurd hk (Nat.not_lt_zero k))

/-- Big-endian value of a cons cell. -/
lemma beValue_cons (a : Nat) (l : List Nat) :
    beValue (a :: l) = a * 256 ^ l.length + beValue l := by
  rw [beValue, List.foldl_cons, beValue_foldl]
  simp [beValue]

/-- A list of bytes has big-endian value below 256 to its length. -/
lemma beValue_lt (l : List Nat) (h : ∀ b ∈ l, b < 256) :
    beValue l < 256 ^ l.length := by
  induction l with
  | nil => simp [beValue]
  | cons a l ih =>
    rw [beValue_cons]
    have ha : a < 256 := h a (by simp)
    have hl : beValue l < 256 ^ l.length := ih (fun b hb => h b (by simp [hb]))
    have hX : 0 < 256 ^ l.length := Nat.pos_pow_of_pos _ (by norm_num)
    calc a * 256 ^ l.length + beValue l < a * 256 ^ l.length + 256 ^ l.length := by omega
      _ = (a + 1) * 256 ^ l.length := by ring
      _ ≤ 256 * 256 ^ l.length := Nat.mul_le_mul_right _ (by omega)
      _ = 256 ^ (a :: l).length := by rw [List.length_cons]; ring

/-- The minimal length-field width of spec section 4.1 lies in 1..8 and
represents every length below 2^56. -/
lemma minimalN_spec (L : Nat) (h : L < 2 ^ 56) :
    1 ≤ minimalN L ∧ minimalN L ≤ 8 ∧ L < 256 ^ minimalN L := by
  rw [minimalN]
  split_ifs <;>
    refine ⟨by norm_num, by norm_num, ?_⟩ <;> norm_num at * <;> omega

/-- C3 counterexample: the claim says a size byte above 8 yields a defined
FrameError; on a stream whose size byte is 9 (with 9 length-field bytes
available) the decoder instead panics, from the negative-gap slice in
unpackVarintData. -/
theorem decode_size_byte_nine_panics :
    readMessageFromConn ⟨[9, 1, 2, 3, 4, 5, 6, 7, 8, 9], []⟩ = GoRes.panicked := by decide

/-- C3 amended: a size byte of 0 yields the defined FrameError "buffer
was empty" on every stream and every delivery schedule; a size byte above
8 (with that many length-field bytes available) makes the decoder panic
in unpackVarintData rather than return a FrameError. -/
theorem decode_boundary_amended :
    (∀ s : ByteStream, s.data.head? = some 0 →
      readMessageFromConn s = GoRes.err "buffer was empty") ∧
    (∀ (s : ByteStream) (N : Nat), s.data.head? = some N → 8 < N →
      N + 1 ≤ s.data.length → readMessageFromConn s = GoRes.panicked) := by
  constructor
  · intro s hs
    obtain ⟨ds, hdata⟩ : ∃ ds, s.data = 0 :: ds := by
      cases hdd : s.data with
      | nil => rw [hdd] at hs; simp at hs
      | cons d ds2 =>
        rw [hdd] at hs
        simp at hs
        exact ⟨ds2, by rw [hs]⟩
    rw [readMessageFromConn, fullRead_one s 0 ds hdata]
    simp only [List.headD_cons, Nat.cast_zero]
    rw [fullRead_zero]
    simp [unpackVarintData]
  · intro s N hs h8 hlen
    obtain ⟨ds, hdata⟩ : ∃ ds, s.data = N :: ds := by
      cases hdd : s.data with
      | nil => rw [hdd] at hs; simp at hs
      | cons d ds2 =>
        rw [hdd] at hs
        simp at hs
        exact ⟨ds2, by rw [hs]⟩
    rw [readMessageFromConn, fullRead_one s N ds hdata]
    simp only [List.headD_cons]
    have hds : N ≤ ds.length := by
      rw [hdata] at hlen
      simp at hlen
      omega
    obtain ⟨buf, s2, hok, hbl⟩ := fullRead_ok_of_le ⟨ds, s.sched.tail⟩ N (by simpa using hds)
    rw [hok]
    simp [unpackVarintData_panics buf (by omega)]

/-- Witness for C3 amended: size byte 0, and size byte 9 with nine
length-field bytes available. -/
theorem decode_boundary_amended_witness :
    readMessageFromConn ⟨[0], [1, 1]⟩ = GoRes.err "buffer was empty" ∧
    readMessageFromConn ⟨[9, 1, 2, 3, 4, 5, 6, 7, 8, 9, 10], []⟩ = GoRes.panicked :=
  ⟨decode_boundary_amended.1 ⟨[0], [1, 1]⟩ (by decide),
    decode_boundary_amended.2 ⟨[9, 1, 2, 3, 4, 5, 6, 7, 8, 9, 10], []⟩ 9 (by decide)
      (by decide) (by decide)⟩

/-- C5 counterexample: the claim quantifies over every stream carrying a
well-formed frame; on the well-formed frame 1, 2, 7, 9 (N = 1, L = 2,
payload 7, 9) delivered in one-byte chunks, the decoder returns
1, 2, 9, 0 — not the frame — because of the fullRead overwrite bug. -/
theorem decode_chunked_stream_counterexample :
    readMessageFromConn ⟨[1, 2, 7, 9], [1, 1, 1, 1]⟩ =
      GoRes.ok ([1, 2, 9, 0], ⟨[], []⟩) ∧
    ([1, 2, 9, 0] : List Nat) ≠ [1, 2, 7, 9] := by decide

/-- C5 amended: on a stream whose reads deliver the requested bytes in
full, a frame with size byte N in 1..8, an N-byte big-endian length field
of value L below 2^63, and L payload bytes decodes to exactly the
concatenation size byte ++ length field ++ payload, leaving the rest of
the stream untouched. -/
theorem decode_wellformed_full_delivery (N : Nat) (lenBytes payload rest : List Nat)
    (h1 : 1 ≤ N) (h8 : N ≤ 8) (hlen : lenBytes.length = N)
    (hval : beValue lenBytes < 2 ^ 63)
    (hpay : payload.length = beValue lenBytes) :
    readMessageFromConn ⟨N :: (lenBytes ++ payload ++ rest), []⟩ =
      GoRes.ok (N :: (lenBytes ++ payload), ⟨rest, []⟩) :=
  decode_wellformed N lenBytes payload rest h1 h8 hlen hval hpay

/-- Witness for C5 amended: the spec scenario frame N = 1, L = 5,
payload "hello", followed by one extra stream byte. -/
theorem decode_wellformed_full_delivery_witness :
    (1 : Nat) ≤ 1 ∧ beValue [5] < 2 ^ 63 ∧
    readMessageFromConn ⟨1 :: ([5] ++ [104, 101, 108, 108, 111] ++ [42]), []⟩ =
      GoRes.ok (1 :: ([5] ++ [104, 101, 108, 108, 111]), ⟨[42], []⟩) :=
  ⟨by decide, by decide,
    decode_wellformed_full_delivery 1 [5] [104, 101, 108, 108, 111] [42] (by decide)
      (by decide) (by decide) (by decide) (by decide)⟩


/-- C9: for a payload of length L below 2^56 and any valid width N in
1..8 sufficient to represent L, encoding (spec-modelled, since src/ has no
encoder) and then decoding with the source decoder reproduces the frame,
the payload and the length exactly; the minimal-N encode of the spec
round-trips the same way. -/
theorem encode_decode_roundtrip (payload rest : List Nat) (N : Nat)
    (h1 : 1 ≤ N) (h8 : N ≤ 8)
    (hL : payload.length < 2 ^ 56) (hrep : payload.length < 256 ^ N) :
    readMessageFromConn ⟨encodeWithN N payload ++ rest, []⟩ =
      GoRes.ok (encodeWithN N payload, ⟨rest, []⟩) ∧
    (encodeWithN N payload).drop (1 + N) = payload ∧
    beValue (((encodeWithN N payload).drop 1).take N) = payload.length ∧
    readMessageFromConn ⟨encode payload ++ rest, []⟩ =
      GoRes.ok (encode payload, ⟨rest, []⟩) := by
  have hdec : ∀ M : Nat, 1 ≤ M → M ≤ 8 → payload.length < 256 ^ M →
      readMessageFromConn ⟨encodeWithN M payload ++ rest, []⟩ =
        GoRes.ok (encodeWithN M payload, ⟨rest, []⟩) := by
    intro M hM1 hM8 hMrep
    have hlenb : (natToBytesBE payload.length M).length = M := natToBytesBE_length M _
    have hbe : beValue (natToBytesBE payload.length M) = payload.length :=
      beValue_natToBytesBE M payload.length hMrep
    have hval : beValue (natToBytesBE payload.length M) < 2 ^ 63 := by
      have h56 : (2 : Nat) ^ 56 < 2 ^ 63 := by norm_num
      omega
    have hstream : encodeWithN M payload ++ rest =
        M :: (natToBytesBE payload.length M ++ payload ++ rest) := by
      simp [encodeWithN]
    have hd := decode_wellformed M (natToBytesBE payload.length M) payload rest hM1 hM8
      hlenb hval hbe.symm
    rw [hstream, hd]
    rfl
  have hlenb := natToBytesBE_length N payload.length
  refine ⟨hdec N h1 h8 hrep, ?_, ?_, ?_⟩
  · show (N :: (natToBytesBE payload.length N ++ payload)).drop (1 + N) = payload
    rw [show 1 + N = N + 1 from by omega, List.drop_succ_cons,
      List.drop_append_of_le_length (by omega), List.drop_of_length_le (by omega)]
    simp
  · show beValue (((N :: (natToBytesBE payload.length N ++ payload)).drop 1).take N) =
      payload.length
    rw [List.drop_one, List.tail_cons, List.take_append_of_le_length (by omega),
      List.take_of_length_le (by omega)]
    exact beValue_natToBytesBE N payload.length hrep
  · obtain ⟨m1, m8, mrep⟩ := minimalN_spec payload.length hL
    exact hdec (minimalN payload.length) m1 m8 mrep

/-- Witness for C9 at the two-byte payload 65, 66 with N = 1. -/
theorem encode_decode_roundtrip_witness :
    (1 : Nat) ≤ 1 ∧ ([65, 66] : List Nat).length < 2 ^ 56 ∧
    (readMessageFromConn ⟨encodeWithN 1 [65, 66] ++ [7], []⟩ =
        GoRes.ok (encodeWithN 1 [65, 66], ⟨[7], []⟩) ∧
      (encodeWithN 1 [65, 66]).drop (1 + 1) = [65, 66] ∧
      beValue (((encodeWithN 1 [65, 66]).drop 1).take 1) = ([65, 66] : List Nat).length ∧
      readMessageFromConn ⟨encode [65, 66] ++ [7], []⟩ =
        GoRes.ok (encode [65, 66], ⟨[7], []⟩)) :=
  ⟨by decide, by decide,
    encode_decode_roundtrip [65, 66] [7] 1 (by decide) (by decide) (by decide) (by decide)⟩

/-- C10: an 8-byte big-endian length field with value at least 2^63 (all
bytes below 256) makes dataToInt return a negative Go int, and the
decoder then panics in make([]byte, size) inside the payload fullRead
instead of returning a FrameError. -/
theorem decode_negative_length_panics (lenBytes rest : List Nat)
    (hlen : lenBytes.length = 8) (hbytes : ∀ b ∈ lenBytes, b < 256)
    (hval : 2 ^ 63 ≤ beValue lenBytes) :
    dataToInt (List.replicate (8 - lenBytes.length) 0 ++ lenBytes) < 0 ∧
    readMessageFromConn ⟨8 :: (lenBytes ++ rest), []⟩ = GoRes.panicked := by
  have h64 : beValue lenBytes < 2 ^ 64 := by
    have hb := beValue_lt lenBytes hbytes
    rw [hlen] at hb
    have : (256 : Nat) ^ 8 = 2 ^ 64 := by norm_num
    omega
  have hrep : List.replicate (8 - lenBytes.length) 0 ++ lenBytes = lenBytes := by
    rw [hlen]
    simp
  have hneg : dataToInt (List.replicate (8 - lenBytes.length) 0 ++ lenBytes) < 0 := by
    rw [hrep]
    simp only [dataToInt]
    rw [List.take_of_length_le (by omega), if_neg (by omega)]
    omega
  refine ⟨hneg, ?_⟩
  rw [readMessageFromConn, fullRead_one ⟨8 :: (lenBytes ++ rest), []⟩ 8 (lenBytes ++ rest) rfl]
  simp only [List.headD_cons, List.tail_nil]
  rw [show ((8 : Nat) : Int) = ((8 : Nat) : Int) from rfl,
    fullRead_nil_sched (lenBytes ++ rest) 8 (by simp [hlen])]
  rw [List.take_append_of_le_length (by omega), List.take_of_length_le (by omega)]
  rw [List.drop_append_of_le_length (by omega), List.drop_of_length_le (by omega)]
  simp only [List.nil_append]
  rw [unpackVarintData_ok lenBytes (by omega) (by omega), hrep]
  have hpan : fullRead ⟨rest, []⟩ (dataToInt lenBytes) = GoRes.panicked := by
    rw [fullRead, if_pos]
    have := hneg
    rwa [hrep] at this
  simp [hpan]

/-- Witness for C10: length field 0x80 followed by seven zero bytes,
value exactly 2^63. -/
theorem decode_negative_length_panics_witness :
    ([128, 0, 0, 0, 0, 0, 0, 0] : List Nat).length = 8 ∧
    2 ^ 63 ≤ beValue [128, 0, 0, 0, 0, 0, 0, 0] ∧
    (dataToInt (List.replicate (8 - ([128, 0, 0, 0, 0, 0, 0, 0] : List Nat).length) 0 ++
        [128, 0, 0, 0, 0, 0, 0, 0]) < 0 ∧
      readMessageFromConn ⟨8 :: ([128, 0, 0, 0, 0, 0, 0, 0] ++ []), []⟩ = GoRes.panicked) :=
  ⟨by decide, by decide,
    decode_negative_length_panics [128, 0, 0, 0, 0, 0, 0, 0] [] (by decide) (by decide)
      (by decide)⟩
